import Mathlib

/-!
Verification of the MapDevolution ring-assembly core and its callers.

The definitions below are shallow embeddings of:
* `BoundariesController.ArePointsClose`, `ProcessMultipolygon`,
  `ProcessBoundaries` (MapApi, C#);
* the inline boundary ring-stitching, the park multipolygon
  concatenation, and the stale-query guard in
  `map-ui/src/components/CanvasRenderer.tsx`.

Coordinates are modelled as exact rationals; a point is a
(longitude, latitude) pair.
-/

/-- A point: (longitude, latitude) in degrees. -/
abbrev Pt : Type := ℚ × ℚ

/-- A segment / way: an ordered list of points. -/
abbrev Seg : Type := List Pt

/-- `BoundariesController.ArePointsClose` (C#, lines 203-206) and the inline
endpoint comparisons of `CanvasRenderer.tsx`: both coordinate deltas must be
strictly below the source literal 0.0001 = 1/10000 degrees. -/
def ArePointsClose (p q : Pt) : Bool :=
  decide (|p.1 - q.1| < 1 / 10000) && decide (|p.2 - q.2| < 1 / 10000)

/-- One splice attempt between the current ring and a candidate way,
mirroring the four connection branches of `ProcessMultipolygon`
(C#, lines 160-193) and of the `CanvasRenderer.tsx` boundary stitching
(lines 682-708):
append forward, append reversed, prepend forward, prepend reversed;
each branch drops exactly one duplicated endpoint. -/
def tryConnect (ring way : Seg) : Option Seg :=
  match ring.head?, ring.getLast?, way.head?, way.getLast? with
  | some rs, some re, some ws, some we =>
    if ArePointsClose re ws then some (ring.dropLast ++ way)
    else if ArePointsClose re we then some (ring.dropLast ++ way.reverse)
    else if ArePointsClose rs we then some (way.dropLast ++ ring)
    else if ArePointsClose rs ws then some (way.reverse.dropLast ++ ring)
    else none
  | _, _, _, _ => none

/-- Scan the unused ways in index order for the first one that connects to
the current ring (the inner `for j` loop of both source instances).
Returns the consumed indexed way, the spliced ring, and the remaining
unused ways in their original order. -/
def scanConnect (ring : Seg) : List (ℕ × Seg) → Option ((ℕ × Seg) × Seg × List (ℕ × Seg))
  | [] => none
  | p :: rest =>
    match tryConnect ring p.2 with
    | some r2 => some (p, r2, rest)
    | none =>
      match scanConnect ring rest with
      | some (q, r2, rest2) => some (q, r2, p :: rest2)
      | none => none

/-- The `while (foundConnection)` loop: repeatedly splice the first
connectable unused way into the current ring until none connects.
`fuel` bounds the number of iterations; each successful splice removes one
way from `rem`, so `fuel = rem.length` is always sufficient.
Returns the finished ring, the consumed indexed ways in splice order, and
the remaining unused ways. -/
def growRingF : ℕ → Seg → List (ℕ × Seg) → Seg × List (ℕ × Seg) × List (ℕ × Seg)
  | 0, ring, rem => (ring, [], rem)
  | fuel + 1, ring, rem =>
    match scanConnect ring rem with
    | none => (ring, [], rem)
    | some (q, r2, rem2) =>
      let res := growRingF fuel r2 rem2
      (res.1, q :: res.2.1, res.2.2)

/-- The outer `for i` loop of `ProcessMultipolygon` / the boundary
stitching: seed a ring from the lowest-indexed unused way, grow it, emit
it, and continue with the remaining ways.  Each emitted group carries the
indexed ways consumed into it (seed first). -/
def assembleAuxF : ℕ → List (ℕ × Seg) → List (Seg × List (ℕ × Seg))
  | 0, _ => []
  | _ + 1, [] => []
  | fuel + 1, p :: rest =>
    let res := growRingF rest.length p.2 rest
    (res.1, p :: res.2.1) :: assembleAuxF fuel res.2.2

/-- Ring assembly instrumented with the consumed indexed ways per ring.
Empty ways are discarded before assembly, exactly as both source
instances filter `way.Count > 0` / `way.length > 0`. -/
def assembleIdx (ways : List Seg) : List (Seg × List (ℕ × Seg)) :=
  let ws := ways.filter (fun w => !w.isEmpty)
  assembleAuxF ws.length ws.enum

/-- The ring assembler: the list of assembled rings, in emission order.
This is `BoundariesController.ProcessMultipolygon` (C#, lines 121-201)
and, identically, the inline stitching of `CanvasRenderer.tsx`
(lines 657-716). -/
def assembleRings (ways : List Seg) : List Seg :=
  (assembleIdx ways).map Prod.fst

/-- `BoundariesController.ProcessMultipolygon`, as called on the outer
member geometries. -/
def ProcessMultipolygon (ways : List Seg) : List Seg :=
  assembleRings ways

/-- The outer-way extraction of the `CanvasRenderer.tsx` relation paths
(boundaries lines 649-652, parks lines 612-615): keep members whose role
is "outer" or the empty string, take their geometry, drop empty ways. -/
def outerWaysOf (members : List (String × Seg)) : List Seg :=
  ((members.filter (fun m => m.1 == "outer" || m.1 == "")).map Prod.snd).filter
    (fun w => !w.isEmpty)

/-- The boundary-relation coordinate builder of `CanvasRenderer.tsx`
(lines 646-717): role filter, then zero/one-way shortcuts, then the ring
stitching. -/
def boundaryCoords (members : List (String × Seg)) : List Seg :=
  let ow := outerWaysOf members
  if ow.length = 0 then []
  else if ow.length = 1 then [ow.headD []]
  else assembleRings ow

/-- The park/water multipolygon coordinate builder of `CanvasRenderer.tsx`
(lines 609-624): role filter, then zero/one-way shortcuts, then plain
concatenation of all outer ways into a single ring. -/
def parkCoords (members : List (String × Seg)) : List Seg :=
  let ow := outerWaysOf members
  if ow.length = 0 then []
  else if ow.length = 1 then [ow.headD []]
  else [ow.flatten]

/-- The member/geometry handling of `BoundariesController.ProcessBoundaries`
(C#, lines 79-101) for one relation element: members with role exactly
"outer" and nonempty geometry feed `ProcessMultipolygon`; otherwise the
element geometry, when nonempty, is a single ring; otherwise no rings. -/
def ProcessBoundariesCoords (members : List (String × Seg)) (geometry : Seg) : List Seg :=
  let om := members.filter (fun m => m.1 == "outer" && !m.2.isEmpty)
  if om.length > 0 then ProcessMultipolygon (om.map Prod.snd)
  else if !geometry.isEmpty then [geometry]
  else []

/-- The rings of an assembly output viewed as a multiset of point sets:
ring identity up to emission order, point order and direction. -/
def ringPointSets (rs : List Seg) : Multiset (Finset Pt) :=
  (rs.map (fun r => r.toFinset) : List (Finset Pt))

/-- The multiset of input segments consumed across all output rings. -/
def consumedSegs (ways : List Seg) : List Seg :=
  ((assembleIdx ways).map (fun g => g.2.map Prod.snd)).flatten

/-- Client fetch state of `CanvasRenderer.tsx`: the monotonically
increasing query counter (`queryCounterRef`), the currently applied map
data (`setMapData`) and the bbox cache entry (`setCachedData`), with the
payload abstracted to a number. -/
structure ClientState where
  queryCounter : ℕ
  mapData : Option ℕ
  cache : Option ℕ
deriving DecidableEq

/-- Starting a fetch (lines 69-71): increment the query counter and
capture its new value as this fetch's sequence number. -/
def startQuery (s : ClientState) : ClientState × ℕ :=
  ({ s with queryCounter := s.queryCounter + 1 }, s.queryCounter + 1)

/-- Completing a fetch (lines 743-751): apply the payload to the map state
and the cache only when the captured sequence number still equals the
current counter; otherwise discard the response unchanged. -/
def completeQuery (s : ClientState) (qid payload : ℕ) : ClientState :=
  if qid = s.queryCounter then { s with mapData := some payload, cache := some payload } else s

/-- An interleaving event: another fetch starts, or some fetch completes
with a captured sequence number and payload. -/
inductive FetchEvent where
  | start : FetchEvent
  | complete : ℕ → ℕ → FetchEvent
deriving DecidableEq

/-- One event step of the client. -/
def stepEvent (s : ClientState) : FetchEvent → ClientState
  | FetchEvent.start => (startQuery s).1
  | FetchEvent.complete qid payload => completeQuery s qid payload

/-- Run a list of interleaving events. -/
def runEvents (s : ClientState) (evs : List FetchEvent) : ClientState :=
  evs.foldl stepEvent s


/-! ### Basic facts about one splice -/

theorem tryConnect_cases {ring way r2 : Seg} (h : tryConnect ring way = some r2) :
    ring ≠ [] ∧ way ≠ [] ∧
      (r2 = ring.dropLast ++ way ∨ r2 = ring.dropLast ++ way.reverse ∨
       r2 = way.dropLast ++ ring ∨ r2 = way.reverse.dropLast ++ ring) := by
  unfold tryConnect at h
  cases h1 : ring.head? with
  | none => rw [h1] at h; cases h
  | some rs =>
    cases h2 : ring.getLast? with
    | none => rw [h1, h2] at h; cases h
    | some re =>
      cases h3 : way.head? with
      | none => rw [h1, h2, h3] at h; cases h
      | some ws =>
        cases h4 : way.getLast? with
        | none => rw [h1, h2, h3, h4] at h; cases h
        | some we =>
          rw [h1, h2, h3, h4] at h
          have hr : ring ≠ [] := by
            rcases List.head?_eq_some_iff.mp h1 with ⟨ys, rfl⟩; simp
          have hw : way ≠ [] := by
            rcases List.head?_eq_some_iff.mp h3 with ⟨ys, rfl⟩; simp
          refine ⟨hr, hw, ?_⟩
          dsimp only at h
          split at h
          · exact Or.inl (Option.some.inj h).symm
          · split at h
            · exact Or.inr (Or.inl (Option.some.inj h).symm)
            · split at h
              · exact Or.inr (Or.inr (Or.inl (Option.some.inj h).symm))
              · split at h
                · exact Or.inr (Or.inr (Or.inr (Option.some.inj h).symm))
                · cases h


theorem tryConnect_some_ne {ring way r2 : Seg} (h : tryConnect ring way = some r2) :
    r2 ≠ [] := by
  obtain ⟨hr, hw, hc⟩ := tryConnect_cases h
  rcases hc with rfl | rfl | rfl | rfl
  · simp [hw]
  · simp [hw]
  · simp [hr]
  · simp [hr]

theorem tryConnect_some_length {ring way r2 : Seg} (h : tryConnect ring way = some r2) :
    r2.length + 1 = ring.length + way.length := by
  obtain ⟨hr, hw, hc⟩ := tryConnect_cases h
  have hr1 : 1 ≤ ring.length := List.length_pos.mpr hr
  have hw1 : 1 ≤ way.length := List.length_pos.mpr hw
  rcases hc with rfl | rfl | rfl | rfl <;>
    simp only [List.length_append, List.length_dropLast, List.length_reverse] <;> omega

theorem tryConnect_some_mem {ring way r2 : Seg} (h : tryConnect ring way = some r2) :
    ∀ p ∈ r2, p ∈ ring ∨ p ∈ way := by
  obtain ⟨hr, hw, hc⟩ := tryConnect_cases h
  intro p hp
  rcases hc with rfl | rfl | rfl | rfl <;> rw [List.mem_append] at hp <;>
    rcases hp with hp | hp
  · exact Or.inl ((List.dropLast_sublist _).mem hp)
  · exact Or.inr hp
  · exact Or.inl ((List.dropLast_sublist _).mem hp)
  · exact Or.inr (List.mem_reverse.mp hp)
  · exact Or.inr ((List.dropLast_sublist _).mem hp)
  · exact Or.inl hp
  · exact Or.inr (List.mem_reverse.mp ((List.dropLast_sublist _).mem hp))
  · exact Or.inl hp


theorem head?_append_cases {l1 l2 : List Pt} {p : Pt} (h : (l1 ++ l2).head? = some p) :
    l1.head? = some p ∨ l2.head? = some p := by
  cases l1 with
  | nil => simp_all
  | cons a t => simp_all

theorem head?_dropLast {l : List Pt} {p : Pt} (h : l.dropLast.head? = some p) :
    l.head? = some p := by
  cases l with
  | nil => simp_all
  | cons a t =>
    cases t with
    | nil => simp_all
    | cons b t2 => simp_all

theorem getLast?_append_of_ne_nil {l1 l2 : List Pt} (h2 : l2 ≠ []) :
    (l1 ++ l2).getLast? = l2.getLast? := by
  rw [List.getLast?_append]
  cases hg : l2.getLast? with
  | none => exact absurd (List.getLast?_eq_none_iff.mp hg) h2
  | some q => simp

theorem tryConnect_endpoints {ring way r2 : Seg} (h : tryConnect ring way = some r2) :
    (∀ p, r2.head? = some p →
      ring.head? = some p ∨ way.head? = some p ∨ way.getLast? = some p) ∧
    (∀ p, r2.getLast? = some p →
      ring.getLast? = some p ∨ way.head? = some p ∨ way.getLast? = some p) := by
  obtain ⟨hr, hw, hc⟩ := tryConnect_cases h
  have hwr : way.reverse ≠ [] := by simpa using hw
  constructor
  · intro p hp
    rcases hc with rfl | rfl | rfl | rfl
    · rcases head?_append_cases hp with hp | hp
      · exact Or.inl (head?_dropLast hp)
      · exact Or.inr (Or.inl hp)
    · rcases head?_append_cases hp with hp | hp
      · exact Or.inl (head?_dropLast hp)
      · rw [List.head?_reverse] at hp; exact Or.inr (Or.inr hp)
    · rcases head?_append_cases hp with hp | hp
      · exact Or.inr (Or.inl (head?_dropLast hp))
      · exact Or.inl hp
    · rcases head?_append_cases hp with hp | hp
      · have h2 := head?_dropLast hp
        rw [List.head?_reverse] at h2; exact Or.inr (Or.inr h2)
      · exact Or.inl hp
  · intro p hp
    rcases hc with rfl | rfl | rfl | rfl
    · rw [getLast?_append_of_ne_nil hw] at hp; exact Or.inr (Or.inr hp)
    · rw [getLast?_append_of_ne_nil hwr, List.getLast?_reverse] at hp
      exact Or.inr (Or.inl hp)
    · rw [getLast?_append_of_ne_nil hr] at hp; exact Or.inl hp
    · rw [getLast?_append_of_ne_nil hr] at hp; exact Or.inl hp

theorem tryConnect_eq_none_iff {ring way : Seg} {rs re ws we : Pt}
    (h1 : ring.head? = some rs) (h2 : ring.getLast? = some re)
    (h3 : way.head? = some ws) (h4 : way.getLast? = some we) :
    tryConnect ring way = none ↔
      ArePointsClose re ws = false ∧ ArePointsClose re we = false ∧
      ArePointsClose rs we = false ∧ ArePointsClose rs ws = false := by
  unfold tryConnect
  rw [h1, h2, h3, h4]
  dsimp only
  cases hb1 : ArePointsClose re ws <;> cases hb2 : ArePointsClose re we <;>
    cases hb3 : ArePointsClose rs we <;> cases hb4 : ArePointsClose rs ws <;> simp


/-! ### Facts about the scan over unused ways -/

theorem scanConnect_eq_none_iff {ring : Seg} {rem : List (ℕ × Seg)} :
    scanConnect ring rem = none ↔ ∀ p ∈ rem, tryConnect ring p.2 = none := by
  induction rem with
  | nil => simp [scanConnect]
  | cons p rest ih =>
    unfold scanConnect
    cases ht : tryConnect ring p.2 with
    | some r2 => simp [ht]
    | none =>
      cases hs : scanConnect ring rest with
      | some q =>
        obtain ⟨q1, r2, rest2⟩ := q
        simp only [hs]
        constructor
        · intro hcontra; cases hcontra
        · intro hall
          have : scanConnect ring rest = none := ih.mpr (fun x hx => hall x (List.mem_cons_of_mem _ hx))
          rw [hs] at this; cases this
      | none =>
        simp only [hs]
        constructor
        · intro _ x hx
          rcases List.mem_cons.mp hx with rfl | hx
          · exact ht
          · exact ih.mp hs x hx
        · intro _; trivial

theorem scanConnect_eq_some {ring : Seg} {rem rem2 : List (ℕ × Seg)} {q : ℕ × Seg} {r2 : Seg}
    (h : scanConnect ring rem = some (q, r2, rem2)) :
    tryConnect ring q.2 = some r2 ∧
      ∃ l1 l2, rem = l1 ++ q :: l2 ∧ rem2 = l1 ++ l2 := by
  induction rem generalizing rem2 with
  | nil => cases h
  | cons p rest ih =>
    unfold scanConnect at h
    cases ht : tryConnect ring p.2 with
    | some r3 =>
      rw [ht] at h
      obtain ⟨rfl, rfl, rfl⟩ : p = q ∧ r3 = r2 ∧ rest = rem2 := by
        injection h with h2; injection h2 with ha hb; injection hb with hb hc
        exact ⟨ha.symm ▸ rfl, hb, hc⟩
      exact ⟨ht, [], rest, rfl, rfl⟩
    | none =>
      rw [ht] at h
      cases hs : scanConnect ring rest with
      | none => rw [hs] at h; cases h
      | some tri =>
        obtain ⟨q1, r3, rest2⟩ := tri
        rw [hs] at h
        obtain ⟨rfl, rfl, rfl⟩ : q1 = q ∧ r3 = r2 ∧ p :: rest2 = rem2 := by
          injection h with h2; injection h2 with ha hb; injection hb with hb hc
          exact ⟨ha, hb, hc⟩
        obtain ⟨hq, l1, l2, rfl, rfl⟩ := ih hs
        exact ⟨hq, p :: l1, l2, rfl, rfl⟩


theorem scanConnect_some_length {ring : Seg} {rem rem2 : List (ℕ × Seg)} {q : ℕ × Seg} {r2 : Seg}
    (h : scanConnect ring rem = some (q, r2, rem2)) : rem2.length + 1 = rem.length := by
  obtain ⟨-, l1, l2, rfl, rfl⟩ := scanConnect_eq_some h
  simp [Nat.add_assoc, Nat.add_comm 1]

theorem scanConnect_some_perm {ring : Seg} {rem rem2 : List (ℕ × Seg)} {q : ℕ × Seg} {r2 : Seg}
    (h : scanConnect ring rem = some (q, r2, rem2)) : rem.Perm (q :: rem2) := by
  obtain ⟨-, l1, l2, rfl, rfl⟩ := scanConnect_eq_some h
  exact List.perm_middle

theorem scanConnect_some_sublist {ring : Seg} {rem rem2 : List (ℕ × Seg)} {q : ℕ × Seg} {r2 : Seg}
    (h : scanConnect ring rem = some (q, r2, rem2)) : rem2.Sublist rem := by
  obtain ⟨-, l1, l2, rfl, rfl⟩ := scanConnect_eq_some h
  exact List.Sublist.append_left (List.sublist_cons_self q l2) l1

theorem scanConnect_some_mem {ring : Seg} {rem rem2 : List (ℕ × Seg)} {q : ℕ × Seg} {r2 : Seg}
    (h : scanConnect ring rem = some (q, r2, rem2)) : q ∈ rem := by
  obtain ⟨-, l1, l2, rfl, -⟩ := scanConnect_eq_some h
  simp


/-! ### Facts about the splice loop -/

theorem growRingF_ring_ne {fuel : ℕ} {ring : Seg} {rem : List (ℕ × Seg)} (h : ring ≠ []) :
    (growRingF fuel ring rem).1 ≠ [] := by
  induction fuel generalizing ring rem with
  | zero => exact h
  | succ f ih =>
    unfold growRingF
    cases hs : scanConnect ring rem with
    | none => exact h
    | some tri =>
      obtain ⟨q, r2, rem2⟩ := tri
      exact ih (tryConnect_some_ne (scanConnect_eq_some hs).1)

theorem growRingF_sublist {fuel : ℕ} {ring : Seg} {rem : List (ℕ × Seg)} :
    (growRingF fuel ring rem).2.2.Sublist rem := by
  induction fuel generalizing ring rem with
  | zero => exact List.Sublist.refl rem
  | succ f ih =>
    unfold growRingF
    cases hs : scanConnect ring rem with
    | none => exact List.Sublist.refl rem
    | some tri =>
      obtain ⟨q, r2, rem2⟩ := tri
      exact ih.trans (scanConnect_some_sublist hs)

theorem growRingF_perm {fuel : ℕ} {ring : Seg} {rem : List (ℕ × Seg)} :
    rem.Perm ((growRingF fuel ring rem).2.1 ++ (growRingF fuel ring rem).2.2) := by
  induction fuel generalizing ring rem with
  | zero => exact List.Perm.refl rem
  | succ f ih =>
    unfold growRingF
    cases hs : scanConnect ring rem with
    | none => exact List.Perm.refl rem
    | some tri =>
      obtain ⟨q, r2, rem2⟩ := tri
      dsimp only
      exact (scanConnect_some_perm hs).trans ((@ih r2 rem2).cons q)

theorem growRingF_length {fuel : ℕ} {ring : Seg} {rem : List (ℕ × Seg)} :
    (growRingF fuel ring rem).1.length + (growRingF fuel ring rem).2.1.length =
      ring.length + ((growRingF fuel ring rem).2.1.map (fun p => p.2.length)).sum := by
  induction fuel generalizing ring rem with
  | zero => simp [growRingF]
  | succ f ih =>
    unfold growRingF
    cases hs : scanConnect ring rem with
    | none => simp
    | some tri =>
      obtain ⟨q, r2, rem2⟩ := tri
      dsimp only
      have hlen := tryConnect_some_length (scanConnect_eq_some hs).1
      have := @ih r2 rem2
      simp only [List.length_cons, List.map_cons, List.sum_cons]
      omega

theorem growRingF_scanNone {fuel : ℕ} {ring : Seg} {rem : List (ℕ × Seg)}
    (h : rem.length ≤ fuel) :
    scanConnect (growRingF fuel ring rem).1 (growRingF fuel ring rem).2.2 = none := by
  induction fuel generalizing ring rem with
  | zero =>
    have : rem = [] := List.length_eq_zero.mp (Nat.le_zero.mp h)
    subst this
    rfl
  | succ f ih =>
    unfold growRingF
    cases hs : scanConnect ring rem with
    | none => exact hs
    | some tri =>
      obtain ⟨q, r2, rem2⟩ := tri
      have hlen := scanConnect_some_length hs
      exact ih (by omega)

theorem growRingF_endpoints {fuel : ℕ} {ring : Seg} {rem : List (ℕ × Seg)} :
    ∀ p, ((growRingF fuel ring rem).1.head? = some p ∨
          (growRingF fuel ring rem).1.getLast? = some p) →
      ring.head? = some p ∨ ring.getLast? = some p ∨
        ∃ w ∈ rem.map Prod.snd, w.head? = some p ∨ w.getLast? = some p := by
  induction fuel generalizing ring rem with
  | zero => intro p hp; exact Or.elim hp Or.inl (fun h2 => Or.inr (Or.inl h2))
  | succ f ih =>
    unfold growRingF
    cases hs : scanConnect ring rem with
    | none => intro p hp; exact Or.elim hp Or.inl (fun h2 => Or.inr (Or.inl h2))
    | some tri =>
      obtain ⟨q, r2, rem2⟩ := tri
      dsimp only
      intro p hp
      obtain ⟨htc, l1, l2, hrm, hrm2⟩ := scanConnect_eq_some hs
      obtain ⟨hHead, hLast⟩ := tryConnect_endpoints htc
      have hqmem : q.2 ∈ rem.map Prod.snd := List.mem_map_of_mem _ (scanConnect_some_mem hs)
      have hmono : ∀ w, w ∈ rem2.map Prod.snd → w ∈ rem.map Prod.snd := by
        intro w hw
        exact ((scanConnect_some_sublist hs).map Prod.snd).mem hw
      rcases ih p hp with h2 | h2 | ⟨w, hw, h2⟩
      · rcases hHead p h2 with h3 | h3 | h3
        · exact Or.inl h3
        · exact Or.inr (Or.inr ⟨q.2, hqmem, Or.inl h3⟩)
        · exact Or.inr (Or.inr ⟨q.2, hqmem, Or.inr h3⟩)
      · rcases hLast p h2 with h3 | h3 | h3
        · exact Or.inr (Or.inl h3)
        · exact Or.inr (Or.inr ⟨q.2, hqmem, Or.inl h3⟩)
        · exact Or.inr (Or.inr ⟨q.2, hqmem, Or.inr h3⟩)
      · exact Or.inr (Or.inr ⟨w, hmono w hw, h2⟩)

theorem growRingF_mem {fuel : ℕ} {ring : Seg} {rem : List (ℕ × Seg)} :
    ∀ p ∈ (growRingF fuel ring rem).1,
      p ∈ ring ∨ ∃ w ∈ rem.map Prod.snd, p ∈ w := by
  induction fuel generalizing ring rem with
  | zero => intro p hp; exact Or.inl hp
  | succ f ih =>
    unfold growRingF
    cases hs : scanConnect ring rem with
    | none => intro p hp; exact Or.inl hp
    | some tri =>
      obtain ⟨q, r2, rem2⟩ := tri
      dsimp only
      intro p hp
      obtain ⟨htc, l1, l2, hrm, hrm2⟩ := scanConnect_eq_some hs
      have hqmem : q.2 ∈ rem.map Prod.snd := List.mem_map_of_mem _ (scanConnect_some_mem hs)
      have hmono : ∀ w, w ∈ rem2.map Prod.snd → w ∈ rem.map Prod.snd := by
        intro w hw
        exact ((scanConnect_some_sublist hs).map Prod.snd).mem hw
      rcases ih p hp with h2 | ⟨w, hw, h2⟩
      · rcases tryConnect_some_mem htc p h2 with h3 | h3
        · exact Or.inl h3
        · exact Or.inr ⟨q.2, hqmem, h3⟩
      · exact Or.inr ⟨w, hmono w hw, h2⟩


theorem exists_head?_of_ne_nil {l : Seg} (h : l ≠ []) : ∃ x, l.head? = some x := by
  cases l with
  | nil => exact absurd rfl h
  | cons a t => exact ⟨a, rfl⟩

theorem exists_getLast?_of_ne_nil {l : Seg} (h : l ≠ []) : ∃ x, l.getLast? = some x := by
  cases hg : l.getLast? with
  | none => exact absurd (List.getLast?_eq_none_iff.mp hg) h
  | some x => exact ⟨x, rfl⟩

/-- If a ring connects to no segment of a pool, it also connects to no ring
whose two endpoints are endpoints of segments of that pool. -/
theorem tryConnect_none_of_endpoint_cover {r1 h1 : Seg} {segs : List Seg}
    (hr1 : r1 ≠ []) (hh1 : h1 ≠ [])
    (hcov : ∀ pt, (h1.head? = some pt ∨ h1.getLast? = some pt) →
      ∃ w ∈ segs, w.head? = some pt ∨ w.getLast? = some pt)
    (hnone : ∀ w ∈ segs, w ≠ [] ∧ tryConnect r1 w = none) :
    tryConnect r1 h1 = none := by
  obtain ⟨rs, hrs⟩ := exists_head?_of_ne_nil hr1
  obtain ⟨re, hre⟩ := exists_getLast?_of_ne_nil hr1
  obtain ⟨ps, hps⟩ := exists_head?_of_ne_nil hh1
  obtain ⟨pe, hpe⟩ := exists_getLast?_of_ne_nil hh1
  have key : ∀ pt, (∃ w ∈ segs, w.head? = some pt ∨ w.getLast? = some pt) →
      ArePointsClose re pt = false ∧ ArePointsClose rs pt = false := by
    rintro pt ⟨w, hw, hcase⟩
    obtain ⟨hwne, hwnone⟩ := hnone w hw
    obtain ⟨ws, hws⟩ := exists_head?_of_ne_nil hwne
    obtain ⟨we, hwe⟩ := exists_getLast?_of_ne_nil hwne
    obtain ⟨c1, c2, c3, c4⟩ := (tryConnect_eq_none_iff hrs hre hws hwe).mp hwnone
    rcases hcase with hcase | hcase
    · have : pt = ws := by rw [hws] at hcase; exact (Option.some.inj hcase).symm
      subst this; exact ⟨c1, c4⟩
    · have : pt = we := by rw [hwe] at hcase; exact (Option.some.inj hcase).symm
      subst this; exact ⟨c2, c3⟩
  obtain ⟨d1, d2⟩ := key ps (hcov ps (Or.inl hps))
  obtain ⟨d3, d4⟩ := key pe (hcov pe (Or.inr hpe))
  exact (tryConnect_eq_none_iff hrs hre hps hpe).mpr ⟨d1, d3, d4, d2⟩


/-! ### Facts about the outer seed loop -/

theorem assembleAuxF_perm {fuel : ℕ} {rem : List (ℕ × Seg)} (h : rem.length ≤ fuel) :
    rem.Perm ((assembleAuxF fuel rem).map (fun g => g.2)).flatten := by
  induction fuel generalizing rem with
  | zero =>
    have : rem = [] := List.length_eq_zero.mp (Nat.le_zero.mp h)
    subst this; simp [assembleAuxF]
  | succ f ih =>
    cases rem with
    | nil => simp [assembleAuxF]
    | cons p rest =>
      unfold assembleAuxF
      dsimp only
      have hsub : (growRingF rest.length p.2 rest).2.2.Sublist rest := growRingF_sublist
      have hlen : (growRingF rest.length p.2 rest).2.2.length ≤ f := by
        have := hsub.length_le
        simp only [List.length_cons] at h
        omega
      have hrec := ih hlen
      simp only [List.map_cons, List.flatten_cons]
      exact ((growRingF_perm).cons p).trans ((List.Perm.append_left _ hrec).cons p)

theorem assembleAuxF_ring_ne {fuel : ℕ} {rem : List (ℕ × Seg)}
    (hne : ∀ p ∈ rem, p.2 ≠ []) :
    ∀ g ∈ assembleAuxF fuel rem, g.1 ≠ [] := by
  induction fuel generalizing rem with
  | zero => intro g hg; cases hg
  | succ f ih =>
    cases rem with
    | nil => intro g hg; cases hg
    | cons p rest =>
      unfold assembleAuxF
      dsimp only
      intro g hg
      rcases List.mem_cons.mp hg with rfl | hg
      · exact growRingF_ring_ne (hne p (List.mem_cons_self p rest))
      · refine ih ?_ g hg
        intro q hq
        exact hne q (List.mem_cons_of_mem p (growRingF_sublist.mem hq))

theorem assembleAuxF_mem {fuel : ℕ} {rem : List (ℕ × Seg)} :
    ∀ g ∈ assembleAuxF fuel rem, ∀ pt ∈ g.1, ∃ w ∈ rem.map Prod.snd, pt ∈ w := by
  induction fuel generalizing rem with
  | zero => intro g hg; cases hg
  | succ f ih =>
    cases rem with
    | nil => intro g hg; cases hg
    | cons p rest =>
      unfold assembleAuxF
      dsimp only
      intro g hg pt hpt
      have hmono : ∀ w, w ∈ (growRingF rest.length p.2 rest).2.2.map Prod.snd →
          w ∈ (p :: rest).map Prod.snd := by
        intro w hw
        exact List.mem_cons_of_mem _ ((growRingF_sublist.map Prod.snd).mem hw)
      rcases List.mem_cons.mp hg with rfl | hg
      · rcases growRingF_mem pt hpt with h2 | ⟨w, hw, h2⟩
        · exact ⟨p.2, List.mem_cons_self _ _, h2⟩
        · exact ⟨w, List.mem_cons_of_mem _ hw, h2⟩
      · obtain ⟨w, hw, h2⟩ := ih g hg pt hpt
        exact ⟨w, hmono w hw, h2⟩

theorem assembleAuxF_endpoints {fuel : ℕ} {rem : List (ℕ × Seg)} :
    ∀ g ∈ assembleAuxF fuel rem, ∀ pt,
      (g.1.head? = some pt ∨ g.1.getLast? = some pt) →
      ∃ w ∈ rem.map Prod.snd, w.head? = some pt ∨ w.getLast? = some pt := by
  induction fuel generalizing rem with
  | zero => intro g hg; cases hg
  | succ f ih =>
    cases rem with
    | nil => intro g hg; cases hg
    | cons p rest =>
      unfold assembleAuxF
      dsimp only
      intro g hg pt hpt
      have hmono : ∀ w, w ∈ (growRingF rest.length p.2 rest).2.2.map Prod.snd →
          w ∈ (p :: rest).map Prod.snd := by
        intro w hw
        exact List.mem_cons_of_mem _ ((growRingF_sublist.map Prod.snd).mem hw)
      rcases List.mem_cons.mp hg with rfl | hg
      · rcases growRingF_endpoints pt hpt with h2 | h2 | ⟨w, hw, h2⟩
        · exact ⟨p.2, List.mem_cons_self _ _, Or.inl h2⟩
        · exact ⟨p.2, List.mem_cons_self _ _, Or.inr h2⟩
        · exact ⟨w, List.mem_cons_of_mem _ hw, h2⟩
      · obtain ⟨w, hw, h2⟩ := ih g hg pt hpt
        exact ⟨w, hmono w hw, h2⟩

theorem assembleAuxF_group_length {fuel : ℕ} {rem : List (ℕ × Seg)} :
    ∀ g ∈ assembleAuxF fuel rem,
      g.1.length + g.2.length = (g.2.map (fun p => p.2.length)).sum + 1 := by
  induction fuel generalizing rem with
  | zero => intro g hg; cases hg
  | succ f ih =>
    cases rem with
    | nil => intro g hg; cases hg
    | cons p rest =>
      unfold assembleAuxF
      dsimp only
      intro g hg
      rcases List.mem_cons.mp hg with rfl | hg
      · have := @growRingF_length rest.length p.2 rest
        simp only [List.length_cons, List.map_cons, List.sum_cons]
        omega
      · exact ih g hg


theorem assembleAuxF_pairwise {fuel : ℕ} {rem : List (ℕ × Seg)}
    (h : rem.length ≤ fuel) (hne : ∀ p ∈ rem, p.2 ≠ []) :
    (assembleAuxF fuel rem).Pairwise (fun g1 g2 => tryConnect g1.1 g2.1 = none) := by
  induction fuel generalizing rem with
  | zero =>
    have : rem = [] := List.length_eq_zero.mp (Nat.le_zero.mp h)
    subst this; simp [assembleAuxF]
  | succ f ih =>
    cases rem with
    | nil => simp [assembleAuxF]
    | cons p rest =>
      unfold assembleAuxF
      dsimp only
      have hrestlen : rest.length ≤ f := by
        simp only [List.length_cons] at h; omega
      have hsub : (growRingF rest.length p.2 rest).2.2.Sublist rest := growRingF_sublist
      have hlen2 : (growRingF rest.length p.2 rest).2.2.length ≤ f :=
        le_trans hsub.length_le hrestlen
      have hne2 : ∀ q ∈ (growRingF rest.length p.2 rest).2.2, q.2 ≠ [] := by
        intro q hq
        exact hne q (List.mem_cons_of_mem p (hsub.mem hq))
      refine List.pairwise_cons.mpr ⟨?_, ih hlen2 hne2⟩
      intro g hg
      have hr1ne : (growRingF rest.length p.2 rest).1 ≠ [] :=
        growRingF_ring_ne (hne p (List.mem_cons_self p rest))
      have hgne : g.1 ≠ [] := assembleAuxF_ring_ne hne2 g hg
      have hscan : scanConnect (growRingF rest.length p.2 rest).1
          (growRingF rest.length p.2 rest).2.2 = none :=
        growRingF_scanNone (le_refl _)
      have hnone : ∀ u ∈ (growRingF rest.length p.2 rest).2.2,
          tryConnect (growRingF rest.length p.2 rest).1 u.2 = none :=
        scanConnect_eq_none_iff.mp hscan
      refine @tryConnect_none_of_endpoint_cover _ _
        ((growRingF rest.length p.2 rest).2.2.map Prod.snd) hr1ne hgne ?_ ?_
      · intro pt hpt
        exact assembleAuxF_endpoints g hg pt hpt
      · intro w hw
        obtain ⟨u, hu, rfl⟩ := List.mem_map.mp hw
        exact ⟨hne2 u hu, hnone u hu⟩

theorem growRingF_of_scanNone {fuel : ℕ} {ring : Seg} {rem : List (ℕ × Seg)}
    (h : scanConnect ring rem = none) : growRingF fuel ring rem = (ring, [], rem) := by
  cases fuel with
  | zero => rfl
  | succ f => unfold growRingF; rw [h]

theorem assembleAuxF_replay {fuel : ℕ} {rem : List (ℕ × Seg)}
    (h : rem.length ≤ fuel)
    (hpw : rem.Pairwise (fun a b => tryConnect a.2 b.2 = none)) :
    (assembleAuxF fuel rem).map Prod.fst = rem.map Prod.snd := by
  induction fuel generalizing rem with
  | zero =>
    have : rem = [] := List.length_eq_zero.mp (Nat.le_zero.mp h)
    subst this; simp [assembleAuxF]
  | succ f ih =>
    cases rem with
    | nil => simp [assembleAuxF]
    | cons p rest =>
      unfold assembleAuxF
      obtain ⟨hhead, htail⟩ := List.pairwise_cons.mp hpw
      have hscan : scanConnect p.2 rest = none :=
        scanConnect_eq_none_iff.mpr (fun q hq => hhead q hq)
      have hrestlen : rest.length ≤ f := by
        simp only [List.length_cons] at h; omega
      simp only [growRingF_of_scanNone hscan, List.map_cons]
      rw [ih hrestlen htail]


/-! ### Facts about the assembled output -/

theorem assembleIdx_perm (ways : List Seg) :
    (ways.filter (fun w => !w.isEmpty)).enum.Perm
      (((assembleIdx ways).map (fun g => g.2)).flatten) :=
  assembleAuxF_perm (by simp [List.enum_length])

theorem assembleIdx_ring_ne (ways : List Seg) :
    ∀ g ∈ assembleIdx ways, g.1 ≠ [] := by
  refine assembleAuxF_ring_ne ?_
  intro p hp
  have : p.2 ∈ ways.filter (fun w => !w.isEmpty) := by
    have := List.enum_map_snd (ways.filter (fun w => !w.isEmpty))
    rw [← this]
    exact List.mem_map_of_mem Prod.snd hp
  have := List.of_mem_filter this
  simpa using this

theorem assembleRings_ne (ways : List Seg) : ∀ r ∈ assembleRings ways, r ≠ [] := by
  intro r hr
  obtain ⟨g, hg, rfl⟩ := List.mem_map.mp hr
  exact assembleIdx_ring_ne ways g hg

theorem assembleRings_pairwise (ways : List Seg) :
    (assembleRings ways).Pairwise (fun r1 r2 => tryConnect r1 r2 = none) := by
  have hne : ∀ p ∈ (ways.filter (fun w => !w.isEmpty)).enum, p.2 ≠ [] := by
    intro p hp
    have hmem : p.2 ∈ ways.filter (fun w => !w.isEmpty) := by
      have hsnd := List.enum_map_snd (ways.filter (fun w => !w.isEmpty))
      rw [← hsnd]
      exact List.mem_map_of_mem Prod.snd hp
    simpa using List.of_mem_filter hmem
  have h := @assembleAuxF_pairwise (ways.filter (fun w => !w.isEmpty)).length
    (ways.filter (fun w => !w.isEmpty)).enum (by simp [List.enum_length]) hne
  exact List.pairwise_map.mpr h


theorem assembleRings_idempotent (ways : List Seg) :
    assembleRings (assembleRings ways) = assembleRings ways := by
  have hne := assembleRings_ne ways
  have hfilter : (assembleRings ways).filter (fun w => !w.isEmpty) = assembleRings ways :=
    List.filter_eq_self.mpr (by intro r hr; simpa using hne r hr)
  have hpw : (assembleRings ways).Pairwise (fun r1 r2 => tryConnect r1 r2 = none) :=
    assembleRings_pairwise ways
  have hpw2 : (assembleRings ways).enum.Pairwise (fun a b => tryConnect a.2 b.2 = none) := by
    have hmap : ((assembleRings ways).enum.map Prod.snd).Pairwise
        (fun r1 r2 => tryConnect r1 r2 = none) := by
      rw [List.enum_map_snd]; exact hpw
    exact List.pairwise_map.mp hmap
  conv_lhs => rw [assembleRings, assembleIdx]
  rw [hfilter]
  rw [assembleAuxF_replay (by simp [List.enum_length]) hpw2, List.enum_map_snd]


theorem assembleIdx_flat_indices_perm (ways : List Seg) :
    (((assembleIdx ways).map (fun g => g.2.map Prod.fst)).flatten).Perm
      (List.range (ways.filter (fun w => !w.isEmpty)).length) := by
  have h1 : ((assembleIdx ways).map (fun g => g.2.map Prod.fst)).flatten =
      (((assembleIdx ways).map (fun g => g.2)).flatten).map Prod.fst := by
    rw [List.map_flatten, List.map_map]; rfl
  rw [h1]
  have h2 := (assembleIdx_perm ways).map Prod.fst
  rw [List.enum_map_fst] at h2
  exact h2.symm

theorem assembleIdx_indices_nodup (ways : List Seg) :
    (∀ g ∈ assembleIdx ways, (g.2.map Prod.fst).Nodup) ∧
      (assembleIdx ways).Pairwise
        (fun g1 g2 => (g1.2.map Prod.fst).Disjoint (g2.2.map Prod.fst)) := by
  have hnd : (((assembleIdx ways).map (fun g => g.2.map Prod.fst)).flatten).Nodup :=
    (assembleIdx_flat_indices_perm ways).symm.nodup (List.nodup_range _)
  obtain ⟨h1, h2⟩ := List.nodup_flatten.mp hnd
  constructor
  · intro g hg
    exact h1 _ (List.mem_map_of_mem _ hg)
  · exact List.pairwise_map.mp h2

theorem consumedSegs_perm (ways : List Seg) :
    (consumedSegs ways).Perm (ways.filter (fun w => !w.isEmpty)) := by
  have h1 : consumedSegs ways = (((assembleIdx ways).map (fun g => g.2)).flatten).map Prod.snd := by
    rw [consumedSegs, List.map_flatten, List.map_map]; rfl
  rw [h1]
  have h2 := (assembleIdx_perm ways).map Prod.snd
  rw [List.enum_map_snd] at h2
  exact h2.symm

theorem assembleIdx_group_length (ways : List Seg) :
    ∀ g ∈ assembleIdx ways,
      g.1.length + g.2.length = (g.2.map (fun p => p.2.length)).sum + 1 := by
  unfold assembleIdx
  exact assembleAuxF_group_length

theorem assembleRings_single_length {ways : List Seg} {r : Seg}
    (hne : ∀ w ∈ ways, w ≠ []) (h : assembleRings ways = [r]) :
    r.length + ways.length = (ways.map List.length).sum + 1 := by
  have hfilter : ways.filter (fun w => !w.isEmpty) = ways :=
    List.filter_eq_self.mpr (by intro w hw; simpa using hne w hw)
  obtain ⟨pairs, hgroups⟩ : ∃ pairs, assembleIdx ways = [(r, pairs)] := by
    unfold assembleRings at h
    cases hgi : assembleIdx ways with
    | nil => rw [hgi] at h; cases h
    | cons g t =>
      rw [hgi] at h
      simp only [List.map_cons] at h
      have hg1 : g.1 = r := (List.cons.injEq _ _ _ _).mp h |>.1
      have ht : t.map Prod.fst = [] := (List.cons.injEq _ _ _ _).mp h |>.2
      have ht2 : t = [] := List.map_eq_nil_iff.mp ht
      exact ⟨g.2, by rw [ht2, ← hg1]⟩
  have hlen := assembleIdx_group_length ways (r, pairs)
    (by rw [hgroups]; exact List.mem_singleton_self _)
  have hperm : (ways.filter (fun w => !w.isEmpty)).enum.Perm pairs := by
    have := assembleIdx_perm ways
    rw [hgroups] at this
    simpa using this
  rw [hfilter] at hperm
  have hcount : pairs.length = ways.length := by
    have := hperm.length_eq
    simpa [List.enum_length] using this.symm
  have hsum : (pairs.map (fun p => p.2.length)).sum = (ways.map List.length).sum := by
    have := (hperm.map (fun p => p.2.length)).sum_eq
    have henum : ways.enum.map (fun p => p.2.length) = ways.map List.length := by
      have : ways.enum.map (fun p => p.2.length) = (ways.enum.map Prod.snd).map List.length := by
        rw [List.map_map]; rfl
      rw [this, List.enum_map_snd]
    rw [henum] at this
    exact this.symm
  dsimp only at hlen
  omega


/-! ### Role filtering -/

theorem filter_filter_of_imp {α : Type} {p q : α → Bool} (h : ∀ a, p a = true → q a = true)
    (l : List α) : (l.filter q).filter p = l.filter p := by
  rw [List.filter_filter]
  apply List.filter_congr
  intro a _
  cases hp : p a with
  | false => simp
  | true => simp [h a hp]

theorem outerWaysOf_filter_roles (members : List (String × Seg)) (p : String × Seg → Bool)
    (h : ∀ m, (m.1 == "outer" || m.1 == "") = true → p m = true) :
    outerWaysOf (members.filter p) = outerWaysOf members := by
  unfold outerWaysOf
  rw [filter_filter_of_imp h]

theorem boundaryCoords_filter_roles (members : List (String × Seg)) (p : String × Seg → Bool)
    (h : ∀ m, (m.1 == "outer" || m.1 == "") = true → p m = true) :
    boundaryCoords (members.filter p) = boundaryCoords members := by
  unfold boundaryCoords
  rw [outerWaysOf_filter_roles members p h]

theorem parkCoords_filter_roles (members : List (String × Seg)) (p : String × Seg → Bool)
    (h : ∀ m, (m.1 == "outer" || m.1 == "") = true → p m = true) :
    parkCoords (members.filter p) = parkCoords members := by
  unfold parkCoords
  rw [outerWaysOf_filter_roles members p h]

theorem ProcessBoundariesCoords_filter_roles (members : List (String × Seg)) (geometry : Seg)
    (p : String × Seg → Bool) (h : ∀ m, (m.1 == "outer" && !m.2.isEmpty) = true → p m = true) :
    ProcessBoundariesCoords (members.filter p) geometry = ProcessBoundariesCoords members geometry := by
  unfold ProcessBoundariesCoords
  rw [filter_filter_of_imp h]


/-! ### Client query counter facts -/

theorem stepEvent_counter_mono (s : ClientState) (ev : FetchEvent) :
    s.queryCounter ≤ (stepEvent s ev).queryCounter := by
  cases ev with
  | start => exact Nat.le_succ _
  | complete qid payload =>
    simp only [stepEvent, completeQuery]
    split <;> simp

theorem runEvents_counter_mono (s : ClientState) (evs : List FetchEvent) :
    s.queryCounter ≤ (runEvents s evs).queryCounter := by
  induction evs generalizing s with
  | nil => exact le_refl _
  | cons ev rest ih =>
    exact le_trans (stepEvent_counter_mono s ev) (ih (stepEvent s ev))

theorem runEvents_counter_strict (s : ClientState) (evs : List FetchEvent)
    (h : FetchEvent.start ∈ evs) :
    s.queryCounter + 1 ≤ (runEvents s evs).queryCounter := by
  induction evs generalizing s with
  | nil => cases h
  | cons ev rest ih =>
    rcases List.mem_cons.mp h with rfl | h2
    · have : s.queryCounter + 1 = (stepEvent s FetchEvent.start).queryCounter := rfl
      rw [this]
      exact runEvents_counter_mono _ rest
    · exact le_trans (Nat.succ_le_succ (stepEvent_counter_mono s ev)) (ih _ h2)


theorem assembleIdx_mem (ways : List Seg) :
    ∀ g ∈ assembleIdx ways, ∀ pt ∈ g.1, ∃ w ∈ ways, pt ∈ w := by
  unfold assembleIdx
  intro g hg pt hpt
  obtain ⟨w, hw, h2⟩ := assembleAuxF_mem g hg pt hpt
  rw [List.enum_map_snd] at hw
  exact ⟨w, List.mem_of_mem_filter hw, h2⟩

/-! ## Claims -/

/-- C7: for every input, every point of every output ring occurs verbatim in
some input segment; the assembler never fabricates a point. -/
theorem C7_points_never_fabricated : ∀ (ways : List Seg) (r : Seg) (p : Pt),
    r ∈ assembleRings ways → p ∈ r → ∃ w ∈ ways, p ∈ w := by
  intro ways r p hr hp
  obtain ⟨g, hg, rfl⟩ := List.mem_map.mp hr
  exact assembleIdx_mem ways g hg p hp

/-- Witness for C7 at a concrete input. -/
theorem C7_points_never_fabricated_witness :
    ∃ w ∈ ([[((0:ℚ),(0:ℚ)),(1,0)]] : List Seg), ((0:ℚ),(0:ℚ)) ∈ w :=
  C7_points_never_fabricated [[((0:ℚ),(0:ℚ)),(1,0)]] [((0:ℚ),(0:ℚ)),(1,0)] ((0:ℚ),(0:ℚ))
    (by with_unfolding_all decide) (by with_unfolding_all decide)

/-- C6: each input segment is consumed into at most one output ring; the
index sets of distinct rings are disjoint and no ring consumes the same
index twice. -/
theorem C6_segment_partition : ∀ ways : List Seg,
    (∀ g ∈ assembleIdx ways, (g.2.map Prod.fst).Nodup) ∧
      (assembleIdx ways).Pairwise
        (fun g1 g2 => (g1.2.map Prod.fst).Disjoint (g2.2.map Prod.fst)) :=
  fun ways => assembleIdx_indices_nodup ways

/-- C8: the assembler is idempotent on its own output, and no two distinct
output rings can be connected (no open endpoint of one lies within epsilon
of an endpoint of another). -/
theorem C8_assembler_idempotent : ∀ ways : List Seg,
    assembleRings (assembleRings ways) = assembleRings ways ∧
      (assembleRings ways).Pairwise (fun r1 r2 => tryConnect r1 r2 = none) :=
  fun ways => ⟨assembleRings_idempotent ways, assembleRings_pairwise ways⟩

/-- C4: when the assembler merges all N segments into a single ring, that
ring's point count is the sum of the segment point counts minus (N - 1):
every successful splice drops exactly one duplicated endpoint. -/
theorem C4_single_loop_point_count : ∀ (ways : List Seg) (r : Seg),
    (∀ w ∈ ways, w ≠ []) → assembleRings ways = [r] →
    r.length + ways.length = (ways.map List.length).sum + 1 := by
  intro ways r h1 h2
  exact assembleRings_single_length h1 h2

/-- Witness for C4: three two-point segments forming one loop assemble into
one ring of 2 + 2 + 2 - 2 = 4 points. -/
theorem C4_single_loop_point_count_witness :
    ([((0:ℚ),(1:ℚ)),(0,0),(1,0),(1,1)] : Seg).length +
        ([[((0:ℚ),(0:ℚ)),(1,0)],[(1,0),(1,1)],[(0,1),(0,0)]] : List Seg).length =
      (([[((0:ℚ),(0:ℚ)),(1,0)],[(1,0),(1,1)],[(0,1),(0,0)]] : List Seg).map List.length).sum + 1 :=
  C4_single_loop_point_count [[((0:ℚ),(0:ℚ)),(1,0)],[(1,0),(1,1)],[(0,1),(0,0)]]
    [((0:ℚ),(1:ℚ)),(0,0),(1,0),(1,1)]
    (by intro w hw; fin_cases hw <;> simp)
    (by set_option maxRecDepth 2500 in with_unfolding_all decide)


/-- C3 counterexample: the two inputs are permutations of each other, yet
the rings partition the segments differently: with seed order A, B, C the
branch segment [(1,0),(1,1)] is left alone, while with seed order A, C, B
the chain segment [(1,0),(2,0)] is left alone.  The multiset of rings (as
point sets) differs, so the set of discovered components is not
permutation-invariant. -/
theorem C3_counterexample :
    ([[((0:ℚ),(0:ℚ)),(1,0)],[(1,0),(2,0)],[(1,0),(1,1)]] : List Seg).Perm
        [[((0:ℚ),(0:ℚ)),(1,0)],[(1,0),(1,1)],[(1,0),(2,0)]] ∧
      assembleRings [[((0:ℚ),(0:ℚ)),(1,0)],[(1,0),(2,0)],[(1,0),(1,1)]] =
        [[(0,0),(1,0),(2,0)],[(1,0),(1,1)]] ∧
      assembleRings [[((0:ℚ),(0:ℚ)),(1,0)],[(1,0),(1,1)],[(1,0),(2,0)]] =
        [[(0,0),(1,0),(1,1)],[(1,0),(2,0)]] ∧
      ringPointSets (assembleRings [[((0:ℚ),(0:ℚ)),(1,0)],[(1,0),(2,0)],[(1,0),(1,1)]]) ≠
        ringPointSets (assembleRings [[((0:ℚ),(0:ℚ)),(1,0)],[(1,0),(1,1)],[(1,0),(2,0)]]) := by
  set_option maxRecDepth 2500 in with_unfolding_all decide

/-- C3 (amended): permuting the input may change which ring each segment
ends up in, but every run still consumes each nonempty input segment
exactly once, so two permuted runs consume the same multiset of
segments. -/
theorem C3_permutation_consumption : ∀ l1 l2 : List Seg, l1.Perm l2 →
    (consumedSegs l1).Perm (consumedSegs l2) := by
  intro l1 l2 h
  exact (consumedSegs_perm l1).trans ((h.filter _).trans (consumedSegs_perm l2).symm)

/-- Witness for C3 (amended) at the counterexample input pair. -/
theorem C3_permutation_consumption_witness :
    (consumedSegs [[((0:ℚ),(0:ℚ)),(1,0)],[(1,0),(2,0)],[(1,0),(1,1)]]).Perm
      (consumedSegs [[((0:ℚ),(0:ℚ)),(1,0)],[(1,0),(1,1)],[(1,0),(2,0)]]) :=
  C3_permutation_consumption _ _ (by set_option maxRecDepth 2500 in with_unfolding_all decide)

/-- C2 counterexample: a relation whose outer members are two disjoint
closed squares.  The park path concatenates them into a single ring of 10
points; the boundary path assembles two separate rings.  The outputs are
not the same set of rings under any reordering or reversal, since even the
ring counts differ. -/
theorem C2_counterexample :
    parkCoords [("outer", [((0:ℚ),(0:ℚ)),(1,0),(1,1),(0,1),(0,0)]),
        ("outer", [(10,10),(11,10),(11,11),(10,11),(10,10)])] =
      [[(0,0),(1,0),(1,1),(0,1),(0,0),(10,10),(11,10),(11,11),(10,11),(10,10)]] ∧
    boundaryCoords [("outer", [((0:ℚ),(0:ℚ)),(1,0),(1,1),(0,1),(0,0)]),
        ("outer", [(10,10),(11,10),(11,11),(10,11),(10,10)])] =
      [[(0,0),(1,0),(1,1),(0,1),(0,0)],[(10,10),(11,10),(11,11),(10,11),(10,10)]] ∧
    (parkCoords [("outer", [((0:ℚ),(0:ℚ)),(1,0),(1,1),(0,1),(0,0)]),
        ("outer", [(10,10),(11,10),(11,11),(10,11),(10,10)])]).length = 1 ∧
    (boundaryCoords [("outer", [((0:ℚ),(0:ℚ)),(1,0),(1,1),(0,1),(0,0)]),
        ("outer", [(10,10),(11,10),(11,11),(10,11),(10,10)])]).length = 2 := by
  set_option maxRecDepth 2500 in with_unfolding_all decide

/-- C2 (amended): the park/water path agrees with the boundary stitching
path exactly on relations with at most one nonempty outer-role way; with
several outer ways it concatenates instead of stitching. -/
theorem C2_parks_agree_on_single_outer : ∀ members : List (String × Seg),
    (outerWaysOf members).length ≤ 1 → parkCoords members = boundaryCoords members := by
  intro members h
  rcases Nat.le_one_iff_eq_zero_or_eq_one.mp h with h0 | h1
  · simp [parkCoords, boundaryCoords, h0]
  · simp [parkCoords, boundaryCoords, h1]

/-- Witness for C2 (amended) on a single-outer-way relation. -/
theorem C2_parks_agree_on_single_outer_witness :
    parkCoords [("outer", [((0:ℚ),(0:ℚ)),(1,0),(1,1),(0,1),(0,0)])] =
      boundaryCoords [("outer", [((0:ℚ),(0:ℚ)),(1,0),(1,1),(0,1),(0,0)])] :=
  C2_parks_agree_on_single_outer _ (by with_unfolding_all decide)


/-- C1 counterexample: a multipolygon relation with one outer square and
one inner square.  Both the client boundary path and the C# server path
emit exactly the outer ring; the inner subset is never assembled, and no
point of the inner way reaches any output ring, so no hole is attached. -/
theorem C1_counterexample :
    boundaryCoords [("outer", [((0:ℚ),(0:ℚ)),(1,0),(1,1),(0,1),(0,0)]),
        ("inner", [(1/4,1/4),(3/4,1/4),(3/4,3/4),(1/4,3/4),(1/4,1/4)])] =
      [[(0,0),(1,0),(1,1),(0,1),(0,0)]] ∧
    ProcessBoundariesCoords [("outer", [((0:ℚ),(0:ℚ)),(1,0),(1,1),(0,1),(0,0)]),
        ("inner", [(1/4,1/4),(3/4,1/4),(3/4,3/4),(1/4,3/4),(1/4,1/4)])] [] =
      [[(0,0),(1,0),(1,1),(0,1),(0,0)]] ∧
    (∀ r ∈ boundaryCoords [("outer", [((0:ℚ),(0:ℚ)),(1,0),(1,1),(0,1),(0,0)]),
        ("inner", [(1/4,1/4),(3/4,1/4),(3/4,3/4),(1/4,3/4),(1/4,1/4)])],
      ((1:ℚ)/4, (1:ℚ)/4) ∉ r) := by
  set_option maxRecDepth 2500 in with_unfolding_all decide

/-- C1 (amended): members tagged "inner" are discarded by every assembly
path before stitching: deleting them never changes the output, no inner
ring is ever assembled, and no hole ring is attached to the output. -/
theorem C1_inner_members_ignored : ∀ (members : List (String × Seg)) (geometry : Seg),
    boundaryCoords (members.filter (fun m => !(m.1 == "inner"))) = boundaryCoords members ∧
    parkCoords (members.filter (fun m => !(m.1 == "inner"))) = parkCoords members ∧
    ProcessBoundariesCoords (members.filter (fun m => !(m.1 == "inner"))) geometry =
      ProcessBoundariesCoords members geometry := by
  intro members geometry
  have hb : ∀ m : String × Seg, (m.1 == "outer" || m.1 == "") = true →
      (!(m.1 == "inner")) = true := by
    intro m hm
    rcases Bool.or_eq_true_iff.mp hm with h1 | h1
    · have h2 : m.1 = "outer" := by simpa using h1
      rw [h2]; decide
    · have h2 : m.1 = "" := by simpa using h1
      rw [h2]; decide
  have hc : ∀ m : String × Seg, (m.1 == "outer" && !m.2.isEmpty) = true →
      (!(m.1 == "inner")) = true := by
    intro m hm
    have h2 : m.1 = "outer" := by simpa using (Bool.and_eq_true_iff.mp hm).1
    rw [h2]; decide
  exact ⟨boundaryCoords_filter_roles members _ hb, parkCoords_filter_roles members _ hb,
    ProcessBoundariesCoords_filter_roles members geometry _ hc⟩

/-- C9 counterexample: a member with the empty-string role is not ignored
by the client assembler: it is treated as an outer way and all of its
points reach the output. -/
theorem C9_counterexample :
    boundaryCoords [("", [((0:ℚ),(0:ℚ)),(1,0),(1,1),(0,1),(0,0)])] =
      [[(0,0),(1,0),(1,1),(0,1),(0,0)]] ∧
    parkCoords [("", [((0:ℚ),(0:ℚ)),(1,0),(1,1),(0,1),(0,0)])] =
      [[(0,0),(1,0),(1,1),(0,1),(0,0)]] ∧
    boundaryCoords [("", [((0:ℚ),(0:ℚ)),(1,0),(1,1),(0,1),(0,0)])] ≠ [] := by
  set_option maxRecDepth 2500 in with_unfolding_all decide

/-- C9 (amended): on the client paths only members with role "outer" or
the empty string survive the filter (the empty role is treated as outer,
not ignored); on the C# server path only members with role exactly
"outer" survive.  All other members contribute nothing to any output
ring. -/
theorem C9_other_roles_ignored : ∀ (members : List (String × Seg)) (geometry : Seg),
    boundaryCoords (members.filter (fun m => m.1 == "outer" || m.1 == "")) =
      boundaryCoords members ∧
    parkCoords (members.filter (fun m => m.1 == "outer" || m.1 == "")) =
      parkCoords members ∧
    ProcessBoundariesCoords (members.filter (fun m => m.1 == "outer")) geometry =
      ProcessBoundariesCoords members geometry := by
  intro members geometry
  exact ⟨boundaryCoords_filter_roles members _ (fun m hm => hm),
    parkCoords_filter_roles members _ (fun m hm => hm),
    ProcessBoundariesCoords_filter_roles members geometry _
      (fun m hm => (Bool.and_eq_true_iff.mp hm).1)⟩


/-- C5: two points are connectable endpoints exactly when both coordinate
deltas are strictly within 1/10000 of a degree, and a pair of endpoints
that are within tolerance but not exactly equal is still spliced by the
assembler. -/
theorem C5_epsilon_tolerance_matching :
    (∀ p q : Pt, ArePointsClose p q = true ↔
        (|p.1 - q.1| < 1 / 10000 ∧ |p.2 - q.2| < 1 / 10000)) ∧
    (((1:ℚ),(0:ℚ)) : Pt) ≠ ((1:ℚ), 1/20000) ∧
    ArePointsClose ((1:ℚ),(0:ℚ)) ((1:ℚ), 1/20000) = true ∧
    assembleRings [[((0:ℚ),(0:ℚ)),(1,0)], [((1:ℚ), 1/20000), (2,0)]] =
      [[(0,0),((1:ℚ), 1/20000),(2,0)]] := by
  refine ⟨?_, ?_, ?_, ?_⟩
  · intro p q
    simp [ArePointsClose]
  · with_unfolding_all decide
  · with_unfolding_all decide
  · have h1 : ArePointsClose ((1:ℚ),(0:ℚ)) ((1:ℚ), 1/20000) = true := by
      with_unfolding_all decide
    simp only [assembleRings, assembleIdx, assembleAuxF, growRingF, scanConnect, tryConnect,
      List.filter, List.isEmpty, List.enum, List.enumFrom, List.length, List.head?_cons,
      List.getLast?_cons_cons, List.getLast?_singleton, List.dropLast, List.reverse,
      List.append, List.map, List.cons_append, List.nil_append, h1, if_true]

/-- C10: the client applies a completed fetch (to the map state and the
cache) only when the sequence number captured at fetch start still equals
the query counter; the counter is monotone, and any response whose fetch
was followed by another fetch start is discarded unchanged. -/
theorem C10_stale_responses_discarded :
    (∀ (s : ClientState) (evs : List FetchEvent),
        s.queryCounter ≤ (runEvents s evs).queryCounter) ∧
    (∀ (s : ClientState) (qid d : ℕ), qid ≠ s.queryCounter → completeQuery s qid d = s) ∧
    (∀ (s : ClientState) (qid d : ℕ), qid = s.queryCounter →
        (completeQuery s qid d).mapData = some d ∧ (completeQuery s qid d).cache = some d) ∧
    (∀ (s : ClientState) (evs : List FetchEvent) (d : ℕ), FetchEvent.start ∈ evs →
        completeQuery (runEvents (startQuery s).1 evs) (startQuery s).2 d =
          runEvents (startQuery s).1 evs) := by
  refine ⟨runEvents_counter_mono, ?_, ?_, ?_⟩
  · intro s qid d h
    unfold completeQuery
    rw [if_neg h]
  · intro s qid d h
    unfold completeQuery
    rw [if_pos h]
    exact ⟨rfl, rfl⟩
  · intro s evs d h
    have hstrict := runEvents_counter_strict (startQuery s).1 evs h
    have hq : (startQuery s).2 = s.queryCounter + 1 := rfl
    have hc : (startQuery s).1.queryCounter = s.queryCounter + 1 := rfl
    have h2 : (startQuery s).2 ≠ (runEvents (startQuery s).1 evs).queryCounter := by omega
    unfold completeQuery
    rw [if_neg h2]

/-- Witness for C10: a response carrying sequence number 1 against a
counter at 2 is discarded; one carrying the current number 2 is applied. -/
theorem C10_stale_responses_discarded_witness :
    completeQuery ⟨2, none, none⟩ 1 7 = ⟨2, none, none⟩ ∧
      (completeQuery ⟨2, none, none⟩ 2 7).mapData = some 7 :=
  ⟨C10_stale_responses_discarded.2.1 ⟨2, none, none⟩ 1 7 (by decide),
   (C10_stale_responses_discarded.2.2.1 ⟨2, none, none⟩ 2 7 rfl).1⟩


/-- Witness for C6 at a concrete two-segment input. -/
theorem C6_segment_partition_witness :
    (assembleIdx [[((0:ℚ),(0:ℚ)),(1,0)],[(5,5),(6,5)]]).Pairwise
      (fun g1 g2 => (g1.2.map Prod.fst).Disjoint (g2.2.map Prod.fst)) :=
  (C6_segment_partition [[((0:ℚ),(0:ℚ)),(1,0)],[(5,5),(6,5)]]).2

/-- Witness for C8 at a concrete two-segment input. -/
theorem C8_assembler_idempotent_witness :
    assembleRings (assembleRings [[((0:ℚ),(0:ℚ)),(1,0)],[(5,5),(6,5)]]) =
      assembleRings [[((0:ℚ),(0:ℚ)),(1,0)],[(5,5),(6,5)]] :=
  (C8_assembler_idempotent [[((0:ℚ),(0:ℚ)),(1,0)],[(5,5),(6,5)]]).1

/-- Witness for C1 (amended) at the counterexample relation. -/
theorem C1_inner_members_ignored_witness :
    boundaryCoords ([("outer", [((0:ℚ),(0:ℚ)),(1,0),(1,1),(0,1),(0,0)]),
        ("inner", [(1/4,1/4),(3/4,1/4),(3/4,3/4),(1/4,3/4),(1/4,1/4)])].filter
          (fun m => !(m.1 == "inner"))) =
      boundaryCoords [("outer", [((0:ℚ),(0:ℚ)),(1,0),(1,1),(0,1),(0,0)]),
        ("inner", [(1/4,1/4),(3/4,1/4),(3/4,3/4),(1/4,3/4),(1/4,1/4)])] :=
  (C1_inner_members_ignored _ []).1

/-- Witness for C9 (amended) at a concrete relation with an unknown role. -/
theorem C9_other_roles_ignored_witness :
    boundaryCoords ([("outer", [((0:ℚ),(0:ℚ)),(1,0),(1,1),(0,1),(0,0)]),
        ("subarea", [(7,7),(8,7)])].filter (fun m => m.1 == "outer" || m.1 == "")) =
      boundaryCoords [("outer", [((0:ℚ),(0:ℚ)),(1,0),(1,1),(0,1),(0,0)]),
        ("subarea", [(7,7),(8,7)])] :=
  (C9_other_roles_ignored _ []).1

/-- Witness for C5: the tolerance characterisation at a concrete pair. -/
theorem C5_epsilon_tolerance_matching_witness :
    ArePointsClose ((1:ℚ),(0:ℚ)) ((1:ℚ), 1/20000) = true :=
  C5_epsilon_tolerance_matching.2.2.1
